import Mathlib

/-!
Verification of the USX splitter (src/usx_splitter.py, src/cli.py).

The source program splits a single USX (XML) document into per-chunk files
guided by a TOC.  We embed the content-level behaviour shallowly:

* an XML element (`xml.etree.ElementTree.Element`) becomes `Element`, a value
  with tag, attribute list, leading `text`, trailing `tail`, and children;
* Python exceptions raised by `int(...)` on a malformed verse-number string
  are modelled with `Except Unit`;
* Python truthiness of an optional string (`if child.tail:` etc.) becomes
  `truthyStr`; truthiness of an element (`if verses_in_para:`) is `len > 0`
  for a present element and false for `None`;
* file writing and printing are I/O and are not modelled; the tree handed to
  serialization is.

Reference-sharing behaviour (Python `list.append` storing references) is
modelled separately with an explicit heap of nodes (`ENode`, id = index),
used for the aliasing claims.
-/

/-- An XML element as a value: tag, attributes, leading text (`.text`),
trailing text (`.tail`), ordered children. -/
inductive Element where
  | mk (tag : String) (attrib : List (String × String)) (text : Option String)
       (tail : Option String) (children : List Element)

def Element.tag : Element → String
  | .mk t _ _ _ _ => t

def Element.attrib : Element → List (String × String)
  | .mk _ a _ _ _ => a

def Element.text : Element → Option String
  | .mk _ _ tx _ _ => tx

def Element.tail : Element → Option String
  | .mk _ _ _ tl _ => tl

def Element.children : Element → List Element
  | .mk _ _ _ _ cs => cs

/-- `element.get(key)`: first attribute with the given key, if any. -/
def Element.get (e : Element) (k : String) : Option String :=
  (e.attrib.find? (fun kv => kv.1 == k)).map (fun kv => kv.2)

/-- Python truthiness of an optional string: `None` and `""` are falsy. -/
def truthyStr : Option String → Bool
  | none => false
  | some s => s != ""

/-- Accumulate the value of a decimal digit run; `none` on any non-digit
(the whole run must be digits). -/
def digitsToNatAux : List Char → Nat → Option Nat
  | [], acc => some acc
  | c :: cs, acc =>
    if c.isDigit then digitsToNatAux cs (acc * 10 + (c.toNat - 48))
    else none

/-- Python `str.strip()`: remove surrounding whitespace. -/
def pyStrip (s : String) : String :=
  String.mk (((s.data.dropWhile Char.isWhitespace).reverse.dropWhile Char.isWhitespace).reverse)

/-- `int(s)` on a string: strip surrounding whitespace, optional sign, a
non-empty run of decimal digits; `none` models the `ValueError` exception.
(ASCII digits; Python's underscore grouping and non-ASCII digits never
occur in the inputs considered.) -/
def pyIntOfString (s : String) : Option Int :=
  match (pyStrip s).data with
  | [] => none
  | c :: cs =>
    if c == '-' then
      match cs with
      | [] => none
      | _ => (digitsToNatAux cs 0).map (fun v => -(v : Int))
    else if c == '+' then
      match cs with
      | [] => none
      | _ => (digitsToNatAux cs 0).map (fun v => (v : Int))
    else
      (digitsToNatAux (c :: cs) 0).map (fun v => (v : Int))

/-- `int(child.get('number', 0))`: a missing `number` attribute defaults
to `0`; a present one is parsed, possibly raising. -/
def verseNum (e : Element) : Option Int :=
  match e.get "number" with
  | none => some 0
  | some s => pyIntOfString s

/-- `start_verse <= verse_num <= end_verse` for a verse element whose number
parses; `false` when the number does not parse. -/
def verseInRange (c : Element) (s e : Int) : Bool :=
  match verseNum c with
  | none => false
  | some n => decide (s ≤ n) && decide (n ≤ e)

/-- The scan loop of `extract_chapter_content`: walk the top-level elements
with the `in_target_chapter` flag; `[]`-returns model `break`. -/
def eccGo : List Element → Nat → Bool → List Element
  | [], _, _ => []
  | el :: rest, n, inT =>
    if el.tag == "chapter" then
      if el.get "number" == some (toString n) && el.get "eid" == none then
        el :: eccGo rest n true
      else if el.get "number" != some (toString n) && inT then
        []
      else if el.get "eid" != none && inT then
        [el]
      else
        eccGo rest n inT
    else if inT then
      el :: eccGo rest n inT
    else
      eccGo rest n inT

/-- `USXSplitter.extract_chapter_content`: collect the top-level elements of
chapter `chapter_num` (the warning print on a missing start marker is I/O
and not modelled; the returned list is). -/
def extract_chapter_content (doc : List Element) (chapter_num : Nat) : List Element :=
  eccGo doc chapter_num false

/-- The chapter-start marker test used when scanning:
tag `chapter`, `number` equal to the target, no `eid`. -/
def is_chapter_start (el : Element) (n : Nat) : Bool :=
  el.tag == "chapter" && el.get "number" == some (toString n) && el.get "eid" == none

/-- First loop of `extract_verses_from_para`: does any `verse` child have a
number in `[s, e]`?  `int()` is evaluated child by child and may raise, and
the loop `break`s at the first in-range verse. -/
def hasVersesInRange : List Element → Int → Int → Except Unit Bool
  | [], _, _ => .ok false
  | c :: rest, s, e =>
    if c.tag == "verse" then
      match verseNum c with
      | none => .error ()
      | some n =>
        if decide (s ≤ n) && decide (n ≤ e) then .ok true
        else hasVersesInRange rest s e
    else hasVersesInRange rest s e

/-- `child.tail` contribution to `current_text`: `if child.tail:
current_text += child.tail` (adding nothing for `None` or `""`). -/
def tailText (c : Element) : String :=
  c.tail.getD ""

/-- Second loop of `extract_verses_from_para`: walk the children in order;
an in-range `verse` child is appended (by reference) and its tail
accumulated; an out-of-range `verse` child is dropped together with its
tail; every non-`verse` child is appended and its tail accumulated.
Returns the appended children and the accumulated `current_text`. -/
def walkChildren : List Element → Int → Int → Except Unit (List Element × String)
  | [], _, _ => .ok ([], "")
  | c :: rest, s, e =>
    if c.tag == "verse" then
      match verseNum c with
      | none => .error ()
      | some n =>
        if decide (s ≤ n) && decide (n ≤ e) then
          match walkChildren rest s e with
          | .error u => .error u
          | .ok (l, t) => .ok (c :: l, tailText c ++ t)
        else walkChildren rest s e
    else
      match walkChildren rest s e with
      | .error u => .error u
      | .ok (l, t) => .ok (c :: l, tailText c ++ t)

/-- The text of a paragraph copy: `if para_element.text: current_text =
para_element.text + current_text` followed by `if current_text.strip():
para_copy.text = current_text` — the paragraph's (truthy) leading text is
prepended to the accumulated tail text, and the result becomes the copy's
leading text only when non-blank. -/
def copyTextOf (text : Option String) (ct : String) : Option String :=
  let ct2 := if truthyStr text then text.getD "" ++ ct else ct
  if pyStrip ct2 != "" then some ct2 else none

/-- `USXSplitter.extract_verses_from_para`: `ok none` models `return None`,
`error ()` a `ValueError` escaping from `int(...)`.  The fresh copy keeps
the paragraph's tag and attributes. -/
def extract_verses_from_para (p : Element) (start_verse end_verse : Int) :
    Except Unit (Option Element) :=
  match hasVersesInRange p.children start_verse end_verse with
  | .error u => .error u
  | .ok hv =>
    if !hv then .ok none
    else
      match walkChildren p.children start_verse end_verse with
      | .error u => .error u
      | .ok (kids, ct) =>
        let txt := copyTextOf p.text ct
        let copy : Element := .mk p.tag p.attrib txt none kids
        if kids.length > 0 || (truthyStr txt && pyStrip (txt.getD "") != "") then
          .ok (some copy)
        else
          .ok none

/-- The loop of `extract_verses_for_chunk`: paragraphs contribute their
filtered copy when that copy is truthy (a Python `Element` is truthy when
it has children); chapter-start markers (tag `chapter`, no `eid`) are
carried into every chunk; everything else contributes nothing. -/
def evGo : List Element → Int → Int → Except Unit (List Element)
  | [], _, _ => .ok []
  | el :: rest, s, e =>
    if el.tag == "para" then
      match extract_verses_from_para el s e with
      | .error u => .error u
      | .ok vp =>
        match evGo rest s e with
        | .error u => .error u
        | .ok r =>
          match vp with
          | some v => if v.children.length > 0 then .ok (v :: r) else .ok r
          | none => .ok r
    else if el.tag == "chapter" && el.get "eid" == none then
      match evGo rest s e with
      | .error u => .error u
      | .ok r => .ok (el :: r)
    else
      evGo rest s e

/-- `USXSplitter.extract_verses_for_chunk`: a missing `end_verse`
defaults to `start_verse`. -/
def extract_verses_for_chunk (chapter_content : List Element)
    (start_verse : Int) (end_verse : Option Int := none) :
    Except Unit (List Element) :=
  evGo chapter_content start_verse (end_verse.getD start_verse)

/-- The heading styles recognized by `extract_title_content`. -/
def title_styles : List String := ["s1", "s2", "s3", "mt1", "mt2", "mt3"]

/-- `USXSplitter.extract_title_content`: keep heading-style paragraphs and
chapter-start markers, in order. -/
def extract_title_content : List Element → List Element
  | [] => []
  | el :: rest =>
    if el.tag == "para" &&
        (match el.get "style" with
         | some s => title_styles.contains s
         | none => false) then
      el :: extract_title_content rest
    else if el.tag == "chapter" && el.get "eid" == none then
      el :: extract_title_content rest
    else
      extract_title_content rest

/-- The `book` element prepended to every non-title chunk file
(`ET.SubElement(usx_root, 'book', code='REV', style='id')` with the fixed
descriptive text): the code is the literal `'REV'`, not a configured
value. -/
def bookInfoNode : Element :=
  .mk "book" [("code", "REV"), ("style", "id")]
    (some "- Biblica® Open Vietnamese Contemporary Bible 2015 (Biblica® Thiên Ban Kinh Thánh Hiện Đại)")
    none []

/-- The synthesized chapter end marker
`ET.SubElement(usx_root, 'chapter', eid=f'REV {chapter_num}')`. -/
def chapterEndNode (chapter_num : Nat) : Element :=
  .mk "chapter" [("eid", "REV " ++ toString chapter_num)] none none []

/-- `any(elem.tag == 'chapter' and elem.get('eid') for elem in content)`:
note the truthiness test on the `eid` string (an empty `eid` does not
count). -/
def hasChapterEnd (content : List Element) : Bool :=
  content.any (fun el => el.tag == "chapter" && truthyStr (el.get "eid"))

/-- The document tree built by `USXSplitter.create_chunk_file` before
pretty-printing and serialization (both of which are I/O-side): a `usx`
root with version `3.0`; non-title chunks get the book node first and, when
no element of `content` is already an end marker, a synthesized end marker
last.  (The loop's `if element is not None` guard is vacuous here: the
content lists this program builds never contain `None`.) -/
def create_chunk_root (chapter_num : Nat) (content : List Element)
    (is_title : Bool) : Element :=
  let base : List Element := if is_title then [] else [bookInfoNode]
  let withContent := base ++ content
  let finalKids :=
    if !is_title && !hasChapterEnd content then
      withContent ++ [chapterEndNode chapter_num]
    else
      withContent
  .mk "usx" [("version", "3.0")] none none finalKids

/-- The styles collected by `process_front_matter`. -/
def front_matter_styles : List String :=
  ["h", "toc1", "toc2", "toc3", "mt1", "mt2", "mt3"]

/-- The collection test of `process_front_matter`:
`element.tag in ['book', 'para'] and element.get('style') in [...]`
(a missing style attribute never matches). -/
def front_pred (el : Element) : Bool :=
  (el.tag == "book" || el.tag == "para") &&
  (match el.get "style" with
   | some s => front_matter_styles.contains s
   | none => false)

/-- The collection loop of `process_front_matter`: collect matching
elements, `break` at the first `chapter` element, skip the rest. -/
def front_matter_content : List Element → List Element
  | [] => []
  | el :: rest =>
    if front_pred el then el :: front_matter_content rest
    else if el.tag == "chapter" then []
    else front_matter_content rest

/-- The `front/title.usx` tree built by `process_front_matter`:
written only when the collected content is non-empty; no book node and no
end marker are added. -/
def process_front_matter_root (doc : List Element) : Option Element :=
  let fc := front_matter_content doc
  if fc.isEmpty then none
  else some (.mk "usx" [("version", "3.0")] none none fc)

/-- A chunk entry of a TOC chapter record: the literal `'title'` or a verse
number. -/
inductive ChunkSpec where
  | title
  | verse (n : Int)
deriving DecidableEq

/-- One output file produced by `create_chunk_file`: its chunk index
(`0` for a title file), the `is_title` flag, and the document tree written
to it. -/
structure ChunkFile where
  chunk_num : Int
  is_title : Bool
  root : Element

/-- The chunk loop of `USXSplitter.process_chapter`: each TOC chunk entry
produces one file, in listed order; an exception aborts the run. -/
def pcGo (chapter_num : Nat) (chapter_content : List Element) :
    List ChunkSpec → Except Unit (List ChunkFile)
  | [] => .ok []
  | ChunkSpec.title :: rest =>
    match pcGo chapter_num chapter_content rest with
    | .error u => .error u
    | .ok fs =>
      .ok (ChunkFile.mk 0 true
            (create_chunk_root chapter_num (extract_title_content chapter_content) true) :: fs)
  | ChunkSpec.verse v :: rest =>
    match evGo chapter_content v v with
    | .error u => .error u
    | .ok chunk =>
      match pcGo chapter_num chapter_content rest with
      | .error u => .error u
      | .ok fs =>
        .ok (ChunkFile.mk v false (create_chunk_root chapter_num chunk false) :: fs)

/-- `USXSplitter.process_chapter` as the list of files it writes: when the
extracted chapter content is empty it warns and returns without writing
anything; otherwise every TOC chunk entry yields a file. -/
def process_chapter (chapter_num : Nat) (doc : List Element)
    (chunks : List ChunkSpec) : Except Unit (List ChunkFile) :=
  let chapter_content := extract_chapter_content doc chapter_num
  if chapter_content.isEmpty then .ok []
  else pcGo chapter_num chapter_content chunks

/-- The parsed command-line arguments of `src/cli.py` (paths plus the
`--book-code` and `--book-title` options; the verbose flag changes no
output content). -/
structure CliArgs where
  usx_file : String
  toc_file : String
  output_dir : String
  book_code : String
  book_title : String
deriving DecidableEq

/-- The constructor arguments of `USXSplitter`: only the three paths. -/
structure SplitterInit where
  usx_file_path : String
  toc_file_path : String
  output_dir : String
deriving DecidableEq

/-- `src/cli.py` line 58: `USXSplitter(args.usx_file, args.toc_file,
args.output_dir)` — the parsed `book_code` and `book_title` options are
not passed along. -/
def cli_make_splitter (args : CliArgs) : SplitterInit :=
  SplitterInit.mk args.usx_file args.toc_file args.output_dir

/-! ### Reference-semantics model for the aliasing claim

Python lists and `ElementTree` hold elements by reference:
`para_copy.append(child)` stores the very child object of the source tree
in the copy.  To state sharing we re-express `extract_verses_from_para`
over an explicit heap: a node is an `ENode`, a heap is a list of nodes,
and a node's identity is its index.  `ET.Element(tag, attrib)` allocates a
fresh node; `append` records an existing node id. -/

/-- A heap-resident XML node: children are node ids, not values. -/
structure ENode where
  tag : String
  attrib : List (String × String)
  text : Option String
  tail : Option String
  childIds : List Nat
deriving DecidableEq

instance : Inhabited ENode := ⟨ENode.mk "" [] none none []⟩

/-- The node stored at an id (ids produced by the program are always in
range; `default` is never reached on them). -/
def nodeAt (h : List ENode) (i : Nat) : ENode :=
  h.getD i default

/-- `node.get(key)` on a heap node. -/
def ENode.getA (nd : ENode) (k : String) : Option String :=
  (nd.attrib.find? (fun kv => kv.1 == k)).map (fun kv => kv.2)

/-- `int(child.get('number', 0))` on a heap node. -/
def verseNumH (h : List ENode) (i : Nat) : Option Int :=
  match (nodeAt h i).getA "number" with
  | none => some 0
  | some s => pyIntOfString s

/-- Heap version of the range-check loop of `extract_verses_from_para`. -/
def hasVersesInRangeH (h : List ENode) : List Nat → Int → Int → Except Unit Bool
  | [], _, _ => .ok false
  | i :: rest, s, e =>
    if (nodeAt h i).tag == "verse" then
      match verseNumH h i with
      | none => .error ()
      | some n =>
        if decide (s ≤ n) && decide (n ≤ e) then .ok true
        else hasVersesInRangeH h rest s e
    else hasVersesInRangeH h rest s e

/-- `child.tail` contribution on a heap node. -/
def tailTextH (h : List ENode) (i : Nat) : String :=
  (nodeAt h i).tail.getD ""

/-- Heap version of the child walk: the ids appended to the copy are the
original child ids — `append` stores references, it does not copy. -/
def walkChildrenH (h : List ENode) : List Nat → Int → Int → Except Unit (List Nat × String)
  | [], _, _ => .ok ([], "")
  | i :: rest, s, e =>
    if (nodeAt h i).tag == "verse" then
      match verseNumH h i with
      | none => .error ()
      | some n =>
        if decide (s ≤ n) && decide (n ≤ e) then
          match walkChildrenH h rest s e with
          | .error u => .error u
          | .ok (l, t) => .ok (i :: l, tailTextH h i ++ t)
        else walkChildrenH h rest s e
    else
      match walkChildrenH h rest s e with
      | .error u => .error u
      | .ok (l, t) => .ok (i :: l, tailTextH h i ++ t)

/-- `extract_verses_from_para` over the heap: on success the copy is a
fresh node (id `h.length`) whose `childIds` are the included original
child ids of the source paragraph. -/
def extract_verses_from_para_h (h : List ENode) (pid : Nat)
    (start_verse end_verse : Int) : Except Unit (List ENode × Option Nat) :=
  match hasVersesInRangeH h (nodeAt h pid).childIds start_verse end_verse with
  | .error u => .error u
  | .ok hv =>
    if !hv then .ok (h, none)
    else
      match walkChildrenH h (nodeAt h pid).childIds start_verse end_verse with
      | .error u => .error u
      | .ok (kids, ct) =>
        let txt := copyTextOf (nodeAt h pid).text ct
        let copy : ENode := ENode.mk (nodeAt h pid).tag (nodeAt h pid).attrib txt none kids
        if kids.length > 0 || (truthyStr txt && pyStrip (txt.getD "") != "") then
          .ok (h ++ [copy], some h.length)
        else
          .ok (h, none)

/-! ### Helper lemmas about the chapter scan -/

/-- While not yet inside the target chapter, elements that are not the
target's start marker are skipped without effect. -/
theorem eccGo_skip : ∀ (pre xs : List Element) (n : Nat),
    (∀ e ∈ pre, is_chapter_start e n = false) →
    eccGo (pre ++ xs) n false = eccGo xs n false
  | [], _, _, _ => rfl
  | el :: pre, xs, n, h => by
    have hel : is_chapter_start el n = false := h el (List.mem_cons_self _ _)
    have ih := eccGo_skip pre xs n (fun e he => h e (List.mem_cons_of_mem _ he))
    by_cases h1 : el.tag == "chapter"
    · have h2 : (el.get "number" == some (toString n) && el.get "eid" == none) = false := by
        rw [is_chapter_start, h1] at hel
        simpa using hel
      simp [eccGo, h1, h2, ih]
    · simp [eccGo, h1, ih]

/-- While inside the target chapter, non-`chapter` elements are collected
verbatim. -/
theorem eccGo_collect : ∀ (body xs : List Element) (n : Nat),
    (∀ e ∈ body, (e.tag == "chapter") = false) →
    eccGo (body ++ xs) n true = body ++ eccGo xs n true
  | [], _, _, _ => rfl
  | el :: body, xs, n, h => by
    have hel := h el (List.mem_cons_self _ _)
    have ih := eccGo_collect body xs n (fun e he => h e (List.mem_cons_of_mem _ he))
    simp [eccGo, hel, ih]

/-! ### C1: chapter span extraction -/

/-- C1 (amended): for a document `pre ++ start :: body ++ stop :: rest`
where nothing in `pre` is the target chapter's start marker, `start` is the
target's start marker, `body` holds no `chapter`-tagged node and `stop` is
the next `chapter`-tagged node (and not another target start marker), the
Chapter Extractor returns `start :: body`, additionally including `stop`
exactly when `stop`'s `number` attribute equals the target — so an
explicit end marker is included only when it also carries a matching
`number` attribute; an end marker without one is dropped and scanning
stops before it. -/
theorem C1_chapter_span (pre body rest : List Element) (start stop : Element) (n : Nat)
    (hpre : ∀ e ∈ pre, is_chapter_start e n = false)
    (hstart : is_chapter_start start n = true)
    (hbody : ∀ e ∈ body, (e.tag == "chapter") = false)
    (hstop : (stop.tag == "chapter") = true)
    (hns : is_chapter_start stop n = false) :
    extract_chapter_content (pre ++ (start :: (body ++ (stop :: rest)))) n =
      start :: (body ++
        (if stop.get "number" == some (toString n) then [stop] else [])) := by
  rw [extract_chapter_content, eccGo_skip pre (start :: (body ++ (stop :: rest))) n hpre]
  rw [is_chapter_start] at hstart
  simp only [Bool.and_eq_true] at hstart
  obtain ⟨⟨hst, hsn⟩, hse⟩ := hstart
  rw [is_chapter_start, hstop] at hns
  simp only [Bool.true_and] at hns
  have hstep : eccGo (stop :: rest) n true =
      (if stop.get "number" == some (toString n) then [stop] else []) := by
    by_cases hn : (stop.get "number" == some (toString n)) = true
    · have heid : (stop.get "eid" == none) = false := by
        rw [hn] at hns
        simpa using hns
      simp [eccGo, hstop, hn, heid, bne]
    · have hn' : (stop.get "number" == some (toString n)) = false := by
        simpa using hn
      simp [eccGo, hstop, hn', bne]
  have hstart_step : eccGo (start :: (body ++ (stop :: rest))) n false =
      start :: eccGo (body ++ (stop :: rest)) n true := by
    simp [eccGo, hst, hsn, hse]
  rw [hstart_step, eccGo_collect body (stop :: rest) n hbody, hstep]

def exC1Start : Element := .mk "chapter" [("number", "1"), ("style", "c")] none none []

def exC1Para : Element := .mk "para" [("style", "p")] (some "hello") none []

def exC1End : Element := .mk "chapter" [("eid", "REV 1")] none none []

def exC1Doc : List Element := [exC1Start, exC1Para, exC1End]

/-- C1 (counterexample): in a document holding chapter 1's start marker, a
paragraph, and an explicit end marker carrying only an `eid` (the normal
USX form, with no `number` attribute), the Chapter Extractor stops at the
end marker *without* including it — the claim says such an end marker is
included.  The `number != target` branch of the scan fires first on a
numberless end marker.  (Every element of the returned span lacks an
`eid` while the end marker carries one, so the marker is not in the
span.) -/
theorem C1_counterexample :
    extract_chapter_content exC1Doc 1 = [exC1Start, exC1Para] ∧
    exC1End ∈ exC1Doc ∧
    (exC1End.tag == "chapter") = true ∧
    (exC1End.get "eid" == none) = false ∧
    (extract_chapter_content exC1Doc 1).all (fun x => x.get "eid" == none) = true :=
  ⟨rfl, by simp [exC1Doc], rfl, rfl, rfl⟩

/-- Witness for `C1_chapter_span` at a concrete document. -/
theorem C1_chapter_span_witness :
    extract_chapter_content ([exC1Para] ++ (exC1Start :: ([exC1Para] ++ (exC1End :: [])))) 1 =
      exC1Start :: ([exC1Para] ++
        (if exC1End.get "number" == some (toString 1) then [exC1End] else [])) :=
  C1_chapter_span [exC1Para] [exC1Para] [] exC1Start exC1End 1
    (by decide) (by decide) (by decide) (by decide) (by decide)

/-! ### C7: missing chapter is non-fatal -/

/-- C7: when no top-level element is the requested chapter's start marker,
the Chapter Extractor returns the empty sequence (non-fatally; the warning
print is I/O), and the Chunk Extractor applied to an empty node sequence
returns an empty chunk instead of failing. -/
theorem C7_missing_chapter (doc : List Element) (n : Nat) (s : Int) (ev : Option Int)
    (h : ∀ e ∈ doc, is_chapter_start e n = false) :
    extract_chapter_content doc n = [] ∧
    extract_verses_for_chunk [] s ev = .ok [] := by
  constructor
  · have := eccGo_skip doc [] n h
    simpa [extract_chapter_content, eccGo] using this
  · simp [extract_verses_for_chunk, evGo]

def exC7Doc : List Element :=
  [Element.mk "para" [("style", "p")] (some "text") none [],
   Element.mk "chapter" [("number", "2")] none none []]

/-- Witness for `C7_missing_chapter`: a document holding a paragraph and
chapter 2's start marker has no start marker for chapter 9. -/
theorem C7_missing_chapter_witness :
    extract_chapter_content exC7Doc 9 = [] ∧
    extract_verses_for_chunk [] 3 none = .ok [] :=
  C7_missing_chapter exC7Doc 9 3 none (by decide)

/-! ### C2: single-verse slicing of a paragraph -/

/-- A verse marker as it appears in a paragraph: a `verse` element with a
`number` attribute and trailing text. -/
def verseEl (n : Nat) (t : String) : Element :=
  .mk "verse" [("number", toString n)] none (some t) []

/-- The `if para_element.text: current_text = para_element.text +
current_text` step: prepending an optional leading text is plain string
prepending (the truthiness guard only skips a no-op). -/
theorem truthy_prepend (L ct : String) :
    (if truthyStr (some L) then (some L).getD "" ++ ct else ct) = L ++ ct := by
  by_cases h : (L != "") = true
  · simp [truthyStr, h]
  · have hL : L = "" := by simpa [truthyStr] using h
    simp [truthyStr, hL]

/-- C2 (amended): slicing verse 3 out of a paragraph holding verse markers
1 through 5 returns a copy whose only child is verse 3's marker, and whose
leading text is the paragraph's own leading text *prepended to* verse 3's
trailing text — the other verses' markers and trailing texts are excluded,
but the paragraph's leading text is carried into the copy (the code
prepends it), not excluded as the claim states. -/
theorem C2_single_verse_slice (st : List (String × String)) (L t1 t2 t3 t4 t5 : String)
    (hL : (pyStrip (L ++ t3) != "") = true) :
    extract_verses_from_para
      (.mk "para" st (some L) none
        [verseEl 1 t1, verseEl 2 t2, verseEl 3 t3, verseEl 4 t4, verseEl 5 t5]) 3 3 =
    .ok (some (.mk "para" st (some (L ++ t3)) none [verseEl 3 t3])) := by
  have hhv : hasVersesInRange
      [verseEl 1 t1, verseEl 2 t2, verseEl 3 t3, verseEl 4 t4, verseEl 5 t5] 3 3 =
      .ok true := rfl
  have hwalk : walkChildren
      [verseEl 1 t1, verseEl 2 t2, verseEl 3 t3, verseEl 4 t4, verseEl 5 t5] 3 3 =
      .ok ([verseEl 3 t3], t3 ++ "") := rfl
  have hct : copyTextOf (some L) t3 = some (L ++ t3) := by
    simp only [copyTextOf, truthy_prepend]
    rw [hL]
    simp
  simp [extract_verses_from_para, Element.children, Element.text, Element.tag,
    Element.attrib, hhv, hwalk, hct]

def exC2Para : Element :=
  .mk "para" [("style", "p")] (some "LEADING ") none
    [verseEl 1 "one ", verseEl 2 "two ", verseEl 3 "three ", verseEl 4 "four ", verseEl 5 "five "]

def exC2Copy : Element :=
  .mk "para" [("style", "p")] (some "LEADING three ") none [verseEl 3 "three "]

/-- C2 (counterexample): for a paragraph with leading text `"LEADING "`
and verses 1–5, the chunk for verse 3 has leading text
`"LEADING three "` — the paragraph's leading text is *included* in the
copy, while the claim says it is excluded. -/
theorem C2_counterexample :
    extract_verses_from_para exC2Para 3 3 = .ok (some exC2Copy) ∧
    exC2Copy.text = some "LEADING three " ∧
    (exC2Copy.text == some "three ") = false :=
  ⟨rfl, rfl, by decide⟩

/-- Witness for `C2_single_verse_slice` at concrete strings. -/
theorem C2_single_verse_slice_witness :
    (pyStrip ("LEADING " ++ "three ") != "") = true ∧
    extract_verses_from_para
      (.mk "para" [("style", "p")] (some "LEADING ") none
        [verseEl 1 "one ", verseEl 2 "two ", verseEl 3 "three ",
         verseEl 4 "four ", verseEl 5 "five "]) 3 3 =
    .ok (some (.mk "para" [("style", "p")] (some ("LEADING " ++ "three ")) none
      [verseEl 3 "three "])) :=
  ⟨by decide,
   C2_single_verse_slice [("style", "p")] "LEADING " "one " "two " "three " "four " "five "
     (by decide)⟩

/-! ### C5: front matter -/

/-- The collection loop of `process_front_matter` keeps, of the prefix
before the first `chapter` element, exactly the elements passing
`front_pred` (it never runs past the first `chapter` element). -/
theorem front_matter_content_eq (doc : List Element) :
    front_matter_content doc =
      (doc.takeWhile (fun e => !(e.tag == "chapter"))).filter front_pred := by
  induction doc with
  | nil => rfl
  | cons el rest ih =>
    by_cases h1 : front_pred el = true
    · have ht : (el.tag == "chapter") = false := by
        rw [front_pred, Bool.and_eq_true] at h1
        rcases h1 with ⟨h11, _⟩
        rcases (Bool.or_eq_true _ _).mp h11 with hb | hp
        · rw [eq_of_beq hb]; decide
        · rw [eq_of_beq hp]; decide
      simp [front_matter_content, List.takeWhile_cons, List.filter_cons, h1, ht, ih]
    · have h1' : front_pred el = false := by simpa using h1
      by_cases h2 : (el.tag == "chapter") = true
      · simp [front_matter_content, List.takeWhile_cons, h1', h2]
      · have h2' : (el.tag == "chapter") = false := by simpa using h2
        simp [front_matter_content, List.takeWhile_cons, List.filter_cons, h1', h2', ih]

/-- C5 (amended): for a front TOC entry, the produced `front/title.usx`
contains, of the document's leading nodes before the first chapter marker,
exactly those whose tag is `book` or `para` *and* whose style is in the
front-matter style set — so heading paragraphs are kept, but a leading
book element with the standard style `id` is excluded (the claim's "the
book element and the heading paragraphs" holds only when the book
element's own style is in the set). -/
theorem C5_front_matter (doc : List Element) (h : front_matter_content doc ≠ []) :
    front_matter_content doc =
      (doc.takeWhile (fun e => !(e.tag == "chapter"))).filter front_pred ∧
    process_front_matter_root doc =
      some (.mk "usx" [("version", "3.0")] none none (front_matter_content doc)) := by
  refine ⟨front_matter_content_eq doc, ?_⟩
  have hne : (front_matter_content doc).isEmpty = false := by
    cases hfc : front_matter_content doc with
    | nil => exact absurd hfc h
    | cons a l => rfl
  simp [process_front_matter_root, hne]

def exC5Book : Element :=
  .mk "book" [("code", "REV"), ("style", "id")] (some "Bible") none []

def exC5H1 : Element := .mk "para" [("style", "mt1")] (some "Title") none []

def exC5Ch : Element := .mk "chapter" [("number", "1")] none none []

def exC5Doc : List Element := [exC5Book, exC5H1, exC5Ch]

/-- C5 (counterexample): a document whose first top-level node is a
standard book element (style `id`) followed by a heading paragraph and
then the first chapter marker: front-matter processing collects only the
heading paragraph — the book element is *not* in the output, while the
claim says the output contains the book element and the headings. -/
theorem C5_counterexample :
    front_matter_content exC5Doc = [exC5H1] ∧
    exC5Book ∈ exC5Doc ∧ exC5Book.tag = "book" ∧
    (front_matter_content exC5Doc).all (fun x => x.tag == "para") = true ∧
    (exC5Book.tag == "para") = false :=
  ⟨rfl, by simp [exC5Doc], rfl, rfl, rfl⟩

/-- Witness for `C5_front_matter` at a concrete document. -/
theorem C5_front_matter_witness :
    front_matter_content exC5Doc ≠ [] ∧
    (front_matter_content exC5Doc =
      (exC5Doc.takeWhile (fun e => !(e.tag == "chapter"))).filter front_pred ∧
     process_front_matter_root exC5Doc =
      some (.mk "usx" [("version", "3.0")] none none (front_matter_content exC5Doc))) :=
  have hne : front_matter_content exC5Doc ≠ [] := by
    rw [show front_matter_content exC5Doc = [exC5H1] from rfl]
    simp
  ⟨hne, C5_front_matter exC5Doc hne⟩

/-! ### C6: the book-code option has no effect -/

/-- C6 (the code at the failing input): the CLI parses `--book-code` and
`--book-title` but constructs `USXSplitter` from the three paths alone,
so two invocations differing only in those options build the same
splitter; and the book node prepended by `create_chunk_file` carries the
literal code `REV` and the synthesized end marker the literal identifier
`REV <chapter>` — with `--book-code GEN` the claim requires `GEN`, but the
output still carries `REV`. -/
theorem C6_book_code_hardcoded :
    cli_make_splitter (CliArgs.mk "b.usx" "toc.yml" "out" "GEN" "T1") =
      cli_make_splitter (CliArgs.mk "b.usx" "toc.yml" "out" "REV" "T2") ∧
    (create_chunk_root 1 [] false).children = [bookInfoNode, chapterEndNode 1] ∧
    bookInfoNode.get "code" = some "REV" ∧
    (chapterEndNode 1).get "eid" = some "REV 1" ∧
    (("GEN" : String) == "REV") = false :=
  ⟨rfl, rfl, rfl, rfl, rfl⟩


/-! ### Shape of a chunk's node sequence -/

/-- When some verse is in range, the child walk keeps at least one child
(the first in-range verse itself is appended). -/
theorem walk_kids_pos : ∀ (cs : List Element) (s e : Int) (kids : List Element) (ct : String),
    hasVersesInRange cs s e = .ok true →
    walkChildren cs s e = .ok (kids, ct) → 0 < kids.length
  | [], s, e, kids, ct, hh, hw => by
    exact absurd hh (by simp [hasVersesInRange])
  | c :: rest, s, e, kids, ct, hh, hw => by
    simp only [hasVersesInRange, walkChildren] at hh hw
    by_cases h1 : (c.tag == "verse") = true
    · rw [if_pos h1] at hh hw
      cases hv : verseNum c with
      | none => simp [hv] at hh
      | some n =>
        simp only [hv] at hh hw
        by_cases h2 : (decide (s ≤ n) && decide (n ≤ e)) = true
        · rw [if_pos h2] at hw
          cases hwr : walkChildren rest s e with
          | error u => rw [hwr] at hw; simp at hw
          | ok pr =>
            obtain ⟨l, t⟩ := pr
            rw [hwr] at hw
            simp only [Except.ok.injEq, Prod.mk.injEq] at hw
            rcases hw with ⟨hk, -⟩
            rw [← hk]
            simp
        · rw [if_neg h2] at hh hw
          exact walk_kids_pos rest s e kids ct hh hw
    · rw [if_neg h1] at hh hw
      cases hwr : walkChildren rest s e with
      | error u => rw [hwr] at hw; simp at hw
      | ok pr =>
        obtain ⟨l, t⟩ := pr
        rw [hwr] at hw
        simp only [Except.ok.injEq, Prod.mk.injEq] at hw
        rcases hw with ⟨hk, -⟩
        rw [← hk]
        simp

/-- A paragraph with no in-range verse contributes nothing, not even an
empty copy. -/
theorem evfp_ok_none (p : Element) (s e : Int)
    (hh : hasVersesInRange p.children s e = .ok false) :
    extract_verses_from_para p s e = .ok none := by
  rw [extract_verses_from_para, hh]
  rfl

/-- A paragraph with an in-range verse and a successful walk yields the
copy with the paragraph's tag and attributes, the computed text and the
walked children. -/
theorem evfp_ok_some (p : Element) (s e : Int) (kids : List Element) (ct : String)
    (hh : hasVersesInRange p.children s e = .ok true)
    (hw : walkChildren p.children s e = .ok (kids, ct)) :
    extract_verses_from_para p s e =
      .ok (some (.mk p.tag p.attrib (copyTextOf p.text ct) none kids)) := by
  have hk : 0 < kids.length := walk_kids_pos p.children s e kids ct hh hw
  simp [extract_verses_from_para, hh, hw, hk]

/-- Inversion: a successful non-`None` slice comes from an in-range check
and a successful walk, and has the stated shape. -/
theorem evfp_some_inv (p : Element) (s e : Int) (v : Element)
    (h : extract_verses_from_para p s e = .ok (some v)) :
    hasVersesInRange p.children s e = .ok true ∧
    ∃ kids ct, walkChildren p.children s e = .ok (kids, ct) ∧
      v = .mk p.tag p.attrib (copyTextOf p.text ct) none kids := by
  cases hh : hasVersesInRange p.children s e with
  | error u => rw [extract_verses_from_para, hh] at h; simp at h
  | ok hv =>
    cases hv with
    | false => rw [evfp_ok_none p s e hh] at h; simp at h
    | true =>
      refine ⟨rfl, ?_⟩
      cases hw : walkChildren p.children s e with
      | error u =>
        rw [extract_verses_from_para, hh, hw] at h
        simp at h
      | ok pr =>
        obtain ⟨kids, ct⟩ := pr
        rw [evfp_ok_some p s e kids ct hh hw] at h
        simp only [Except.ok.injEq, Option.some.injEq] at h
        exact ⟨kids, ct, rfl, h.symm⟩

/-- A successful paragraph slice keeps the paragraph's tag. -/
theorem evfp_some_tag (p : Element) (s e : Int) (v : Element)
    (h : extract_verses_from_para p s e = .ok (some v)) : v.tag = p.tag := by
  obtain ⟨-, kids, ct, -, rfl⟩ := evfp_some_inv p s e v h
  rfl

/-- Every element of a chunk produced by the Chunk Extractor is either a
chapter-start marker taken from the input or a paragraph copy. -/
theorem evGo_shape : ∀ (content : List Element) (s e : Int) (chunk : List Element),
    evGo content s e = .ok chunk →
    ∀ x ∈ chunk, (x.tag = "chapter" ∧ x.get "eid" = none) ∨ x.tag = "para"
  | [], s, e, chunk, h => by
    intro x hx
    simp only [evGo] at h
    injection h with h1
    rw [← h1] at hx
    exact absurd hx (by simp)
  | el :: rest, s, e, chunk, h => by
    intro x hx
    simp only [evGo] at h
    by_cases hp : (el.tag == "para") = true
    · rw [if_pos hp] at h
      cases hfp : extract_verses_from_para el s e with
      | error u => rw [hfp] at h; simp at h
      | ok vp =>
        simp only [hfp] at h
        cases hr : evGo rest s e with
        | error u => rw [hr] at h; simp at h
        | ok r =>
          simp only [hr] at h
          cases vp with
          | none =>
            simp only at h
            injection h with h1
            rw [← h1] at hx
            exact evGo_shape rest s e r hr x hx
          | some v =>
            simp only at h
            split at h
            · injection h with h1
              rw [← h1] at hx
              rcases List.mem_cons.mp hx with rfl | hx'
              · right
                rw [evfp_some_tag el s e x hfp, eq_of_beq hp]
              · exact evGo_shape rest s e r hr x hx'
            · injection h with h1
              rw [← h1] at hx
              exact evGo_shape rest s e r hr x hx
    · rw [if_neg hp] at h
      by_cases hc : (el.tag == "chapter" && el.get "eid" == none) = true
      · rw [if_pos hc] at h
        cases hr : evGo rest s e with
        | error u => rw [hr] at h; simp at h
        | ok r =>
          simp only [hr] at h
          injection h with h1
          rw [← h1] at hx
          rcases List.mem_cons.mp hx with rfl | hx'
          · rw [Bool.and_eq_true] at hc
            rcases hc with ⟨hc1, hc2⟩
            exact Or.inl ⟨eq_of_beq hc1, by simpa using hc2⟩
          · exact evGo_shape rest s e r hr x hx'
      · rw [if_neg hc] at h
        exact evGo_shape rest s e chunk h x hx

/-- A chunk produced by the Chunk Extractor never contains a chapter end
marker (in the truthy-`eid` sense tested by `create_chunk_file`). -/
theorem chunk_no_end (content : List Element) (s e : Int) (chunk : List Element)
    (h : evGo content s e = .ok chunk) : hasChapterEnd chunk = false := by
  rw [hasChapterEnd, List.any_eq_false]
  intro x hx
  rcases evGo_shape content s e chunk h x hx with ⟨ht, he⟩ | ht
  · simp [he, truthyStr]
  · simp [ht]

/-! ### C4: exactly one chapter end marker per non-title file -/

/-- A chapter-tagged node carrying an end-id. -/
def isEndMarker (el : Element) : Bool :=
  el.tag == "chapter" && el.get "eid" != none

/-- C4: every non-title output document holds exactly one chapter end
marker: the Chunk Extractor never lets one through from the source, so
`create_chunk_file` always appends exactly one synthesized marker; and
when the content handed to the writer does already hold an end marker
(`hasChapterEnd`), nothing is appended. -/
theorem C4_exactly_one_end (content : List Element) (s : Int) (ev : Option Int)
    (n : Nat) (chunk : List Element)
    (h : extract_verses_for_chunk content s ev = .ok chunk) :
    ((create_chunk_root n chunk false).children.filter isEndMarker).length = 1 ∧
    (∀ content' : List Element, hasChapterEnd content' = true →
      (create_chunk_root n content' false).children = bookInfoNode :: content') := by
  constructor
  · have h' : evGo content s (ev.getD s) = .ok chunk := h
    have hnoe : hasChapterEnd chunk = false := chunk_no_end content s (ev.getD s) chunk h'
    have hch : (create_chunk_root n chunk false).children =
        bookInfoNode :: (chunk ++ [chapterEndNode n]) := by
      simp [create_chunk_root, hnoe, Element.children]
    rw [hch]
    have hfil : chunk.filter isEndMarker = [] := by
      rw [List.filter_eq_nil_iff]
      intro x hx
      rcases evGo_shape content s (ev.getD s) chunk h' x hx with ⟨ht, he⟩ | ht
      · simp [isEndMarker, he]
      · simp [isEndMarker, ht]
    have hb : isEndMarker bookInfoNode = false := rfl
    have hce : isEndMarker (chapterEndNode n) = true := rfl
    simp [List.filter_cons, List.filter_append, hfil, hb, hce]
  · intro content' hce
    simp [create_chunk_root, hce, Element.children]

def exC4Para : Element := .mk "para" [("style", "p")] none none [verseEl 1 "one "]

def exC4Content : List Element := [exC1Start, exC4Para]

def exC4Chunk : List Element :=
  [exC1Start, .mk "para" [("style", "p")] (some "one ") none [verseEl 1 "one "]]

/-- Witness for `C4_exactly_one_end` at a concrete chapter content. -/
theorem C4_exactly_one_end_witness :
    extract_verses_for_chunk exC4Content 1 none = .ok exC4Chunk ∧
    (((create_chunk_root 1 exC4Chunk false).children.filter isEndMarker).length = 1 ∧
     (∀ content' : List Element, hasChapterEnd content' = true →
       (create_chunk_root 1 content' false).children = bookInfoNode :: content')) :=
  ⟨rfl, C4_exactly_one_end exC4Content 1 none 1 exC4Chunk rfl⟩

/-! ### C8: paragraphs without in-range verses contribute nothing -/

/-- If the range check succeeds, some `verse` child is in range. -/
theorem hvir_true_mem : ∀ (cs : List Element) (s e : Int),
    hasVersesInRange cs s e = .ok true →
    ∃ c ∈ cs, c.tag = "verse" ∧ verseInRange c s e = true
  | [], s, e, h => by simp [hasVersesInRange] at h
  | c :: rest, s, e, h => by
    simp only [hasVersesInRange] at h
    by_cases h1 : (c.tag == "verse") = true
    · rw [if_pos h1] at h
      cases hv : verseNum c with
      | none => simp [hv] at h
      | some n =>
        simp only [hv] at h
        by_cases h2 : (decide (s ≤ n) && decide (n ≤ e)) = true
        · exact ⟨c, by simp, eq_of_beq h1, by simp [verseInRange, hv, h2]⟩
        · rw [if_neg h2] at h
          obtain ⟨c', hc', hp⟩ := hvir_true_mem rest s e h
          exact ⟨c', by simp [hc'], hp⟩
    · rw [if_neg h1] at h
      obtain ⟨c', hc', hp⟩ := hvir_true_mem rest s e h
      exact ⟨c', by simp [hc'], hp⟩

/-- Every chunk entry is a chapter-start marker of the input or the slice
of some input paragraph. -/
theorem evGo_members : ∀ (content : List Element) (s e : Int) (chunk : List Element),
    evGo content s e = .ok chunk →
    ∀ x ∈ chunk,
      (x ∈ content ∧ x.tag = "chapter" ∧ x.get "eid" = none) ∨
      (∃ p ∈ content, p.tag = "para" ∧ extract_verses_from_para p s e = .ok (some x))
  | [], s, e, chunk, h => by
    intro x hx
    simp only [evGo] at h
    injection h with h1
    rw [← h1] at hx
    exact absurd hx (by simp)
  | el :: rest, s, e, chunk, h => by
    intro x hx
    have lift : ((x ∈ rest ∧ x.tag = "chapter" ∧ x.get "eid" = none) ∨
        (∃ p ∈ rest, p.tag = "para" ∧ extract_verses_from_para p s e = .ok (some x))) →
        ((x ∈ el :: rest ∧ x.tag = "chapter" ∧ x.get "eid" = none) ∨
        (∃ p ∈ el :: rest, p.tag = "para" ∧ extract_verses_from_para p s e = .ok (some x))) := by
      rintro (⟨hm, hrest⟩ | ⟨p, hm, hrest⟩)
      · exact Or.inl ⟨List.mem_cons_of_mem _ hm, hrest⟩
      · exact Or.inr ⟨p, List.mem_cons_of_mem _ hm, hrest⟩
    simp only [evGo] at h
    by_cases hp : (el.tag == "para") = true
    · rw [if_pos hp] at h
      cases hfp : extract_verses_from_para el s e with
      | error u => rw [hfp] at h; simp at h
      | ok vp =>
        simp only [hfp] at h
        cases hr : evGo rest s e with
        | error u => rw [hr] at h; simp at h
        | ok r =>
          simp only [hr] at h
          cases vp with
          | none =>
            simp only at h
            injection h with h1
            rw [← h1] at hx
            exact lift (evGo_members rest s e r hr x hx)
          | some v =>
            simp only at h
            split at h
            · injection h with h1
              rw [← h1] at hx
              rcases List.mem_cons.mp hx with rfl | hx'
              · exact Or.inr ⟨el, by simp, eq_of_beq hp, hfp⟩
              · exact lift (evGo_members rest s e r hr x hx')
            · injection h with h1
              rw [← h1] at hx
              exact lift (evGo_members rest s e r hr x hx)
    · rw [if_neg hp] at h
      by_cases hc : (el.tag == "chapter" && el.get "eid" == none) = true
      · rw [if_pos hc] at h
        cases hr : evGo rest s e with
        | error u => rw [hr] at h; simp at h
        | ok r =>
          simp only [hr] at h
          injection h with h1
          rw [← h1] at hx
          rcases List.mem_cons.mp hx with rfl | hx'
          · rw [Bool.and_eq_true] at hc
            rcases hc with ⟨hc1, hc2⟩
            exact Or.inl ⟨by simp, eq_of_beq hc1, by simpa using hc2⟩
          · exact lift (evGo_members rest s e r hr x hx')
      · rw [if_neg hc] at h
        exact lift (evGo_members rest s e chunk h x hx)

/-- C8: a paragraph in which no verse marker falls inside `[start, end]`
contributes nothing to the chunk — not even an empty copy — so every
chunk entry is either a chapter-start marker of the input or the slice of
an input paragraph having at least one in-range verse. -/
theorem C8_no_unmatched_para (content : List Element) (s e : Int) (chunk : List Element)
    (h : extract_verses_for_chunk content s (some e) = .ok chunk) :
    (∀ p : Element, hasVersesInRange p.children s e = .ok false →
       extract_verses_from_para p s e = .ok none) ∧
    (∀ x ∈ chunk,
      (x ∈ content ∧ x.tag = "chapter" ∧ x.get "eid" = none) ∨
      (∃ p ∈ content, p.tag = "para" ∧ extract_verses_from_para p s e = .ok (some x) ∧
        ∃ c ∈ p.children, c.tag = "verse" ∧ verseInRange c s e = true)) := by
  have h' : evGo content s e = .ok chunk := h
  refine ⟨fun p hp => evfp_ok_none p s e hp, ?_⟩
  intro x hx
  rcases evGo_members content s e chunk h' x hx with hl | ⟨p, hpmem, hptag, hfp⟩
  · exact Or.inl hl
  · refine Or.inr ⟨p, hpmem, hptag, hfp, ?_⟩
    obtain ⟨hh, -⟩ := evfp_some_inv p s e x hfp
    exact hvir_true_mem p.children s e hh

def exC8ParaNo : Element :=
  .mk "para" [("style", "q")] (some "lead") none [verseEl 9 "nine "]

def exC8Content : List Element := [exC1Start, exC8ParaNo, exC4Para]

/-- Witness for `C8_no_unmatched_para`: the paragraph holding only verse 9
contributes nothing to the chunk for verse 1. -/
theorem C8_no_unmatched_para_witness :
    extract_verses_for_chunk exC8Content 1 (some 1) = .ok exC4Chunk ∧
    ((∀ p : Element, hasVersesInRange p.children 1 1 = .ok false →
        extract_verses_from_para p 1 1 = .ok none) ∧
     (∀ x ∈ exC4Chunk,
       (x ∈ exC8Content ∧ x.tag = "chapter" ∧ x.get "eid" = none) ∨
       (∃ p ∈ exC8Content, p.tag = "para" ∧ extract_verses_from_para p 1 1 = .ok (some x) ∧
         ∃ c ∈ p.children, c.tag = "verse" ∧ verseInRange c 1 1 = true))) :=
  ⟨rfl, C8_no_unmatched_para exC8Content 1 1 exC4Chunk rfl⟩

/-! ### C9: a verse marker without a number attribute counts as verse 0 -/

/-- Every verse-tagged child kept by the walk is in range. -/
theorem walk_verse_in_range : ∀ (cs : List Element) (s e : Int) (kids : List Element) (ct : String),
    walkChildren cs s e = .ok (kids, ct) →
    ∀ c ∈ kids, c.tag = "verse" → verseInRange c s e = true
  | [], s, e, kids, ct, hw => by
    intro c hc htag
    simp only [walkChildren] at hw
    simp only [Except.ok.injEq, Prod.mk.injEq] at hw
    rcases hw with ⟨hk, -⟩
    rw [← hk] at hc
    exact absurd hc (by simp)
  | c0 :: rest, s, e, kids, ct, hw => by
    intro c hc htag
    simp only [walkChildren] at hw
    by_cases h1 : (c0.tag == "verse") = true
    · rw [if_pos h1] at hw
      cases hv : verseNum c0 with
      | none => simp [hv] at hw
      | some n =>
        simp only [hv] at hw
        by_cases h2 : (decide (s ≤ n) && decide (n ≤ e)) = true
        · rw [if_pos h2] at hw
          cases hwr : walkChildren rest s e with
          | error u => rw [hwr] at hw; simp at hw
          | ok pr =>
            obtain ⟨l, t⟩ := pr
            rw [hwr] at hw
            simp only [Except.ok.injEq, Prod.mk.injEq] at hw
            rcases hw with ⟨hk, -⟩
            rw [← hk] at hc
            rcases List.mem_cons.mp hc with rfl | hc'
            · simp [verseInRange, hv, h2]
            · exact walk_verse_in_range rest s e l t hwr c hc' htag
        · rw [if_neg h2] at hw
          exact walk_verse_in_range rest s e kids ct hw c hc htag
    · rw [if_neg h1] at hw
      cases hwr : walkChildren rest s e with
      | error u => rw [hwr] at hw; simp at hw
      | ok pr =>
        obtain ⟨l, t⟩ := pr
        rw [hwr] at hw
        simp only [Except.ok.injEq, Prod.mk.injEq] at hw
        rcases hw with ⟨hk, -⟩
        rw [← hk] at hc
        rcases List.mem_cons.mp hc with rfl | hc'
        · rw [htag] at h1
          simp at h1
        · exact walk_verse_in_range rest s e l t hwr c hc' htag

/-- When `1 ≤ s` and every verse child lacks a number attribute (so each
counts as verse 0), the range check fails. -/
theorem hvir_all_zero : ∀ (cs : List Element) (s e : Int), 1 ≤ s →
    (∀ c ∈ cs, c.tag = "verse" → c.get "number" = none) →
    hasVersesInRange cs s e = .ok false
  | [], _, _, _, _ => rfl
  | c :: rest, s, e, hs, h => by
    have ihrest := hvir_all_zero rest s e hs
      (fun c' hc' ht => h c' (List.mem_cons_of_mem _ hc') ht)
    simp only [hasVersesInRange]
    by_cases h1 : (c.tag == "verse") = true
    · have hnum := h c (by simp) (eq_of_beq h1)
      have hv : verseNum c = some 0 := by simp [verseNum, hnum]
      rw [if_pos h1]
      simp only [hv]
      have hns : (s ≤ (0 : Int)) = False := by simp; omega
      simp [hns, ihrest]
    · rw [if_neg h1]
      exact ihrest

/-- C9: a verse element without a `number` attribute is treated as verse
0; hence for a requested range with `1 ≤ start` such a marker is never
included in a paragraph copy, and a paragraph whose verse markers all lack
numbers contributes nothing. -/
theorem C9_missing_number_zero (s e : Int) (hs : 1 ≤ s) :
    (∀ c : Element, c.get "number" = none → verseNum c = some 0) ∧
    (∀ p copy : Element, extract_verses_from_para p s e = .ok (some copy) →
       ∀ c ∈ copy.children, c.tag = "verse" → c.get "number" ≠ none) ∧
    (∀ p : Element, (∀ c ∈ p.children, c.tag = "verse" → c.get "number" = none) →
       extract_verses_from_para p s e = .ok none) := by
  refine ⟨fun c hc => by simp [verseNum, hc], ?_, ?_⟩
  · intro p copy hcp c hc htag hnone
    obtain ⟨-, kids, ct, hw, rfl⟩ := evfp_some_inv p s e copy hcp
    have hc' : c ∈ kids := by simpa [Element.children] using hc
    have hr := walk_verse_in_range p.children s e kids ct hw c hc' htag
    have hv : verseNum c = some 0 := by simp [verseNum, hnone]
    rw [verseInRange, hv] at hr
    rw [Bool.and_eq_true] at hr
    rcases hr with ⟨hr1, -⟩
    have : s ≤ 0 := of_decide_eq_true hr1
    omega
  · intro p hp
    exact evfp_ok_none p s e (hvir_all_zero p.children s e hs hp)

/-- Witness for `C9_missing_number_zero` at `s = e = 1`. -/
theorem C9_missing_number_zero_witness :
    (1 : Int) ≤ 1 ∧
    ((∀ c : Element, c.get "number" = none → verseNum c = some 0) ∧
     (∀ p copy : Element, extract_verses_from_para p 1 1 = .ok (some copy) →
        ∀ c ∈ copy.children, c.tag = "verse" → c.get "number" ≠ none) ∧
     (∀ p : Element, (∀ c ∈ p.children, c.tag = "verse" → c.get "number" = none) →
        extract_verses_from_para p 1 1 = .ok none)) :=
  ⟨by decide, C9_missing_number_zero 1 1 (by decide)⟩

/-! ### C10: a verse chunk matching nothing still yields a file -/

/-- When no paragraph of the content matches the requested verse, the
chunk is exactly the chapter-start markers of the content. -/
theorem evGo_no_match : ∀ (content : List Element) (v : Int),
    (∀ p ∈ content, p.tag = "para" → extract_verses_from_para p v v = .ok none) →
    evGo content v v =
      .ok (content.filter (fun el => el.tag == "chapter" && el.get "eid" == none))
  | [], v, _ => rfl
  | el :: rest, v, h => by
    have ih := evGo_no_match rest v (fun p hp => h p (List.mem_cons_of_mem _ hp))
    simp only [evGo, List.filter_cons]
    by_cases hp : (el.tag == "para") = true
    · have hfp := h el (by simp) (eq_of_beq hp)
      have hch : (el.tag == "chapter" && el.get "eid" == none) = false := by
        rw [eq_of_beq hp]
        simp
      rw [if_pos hp, hfp, ih, hch]
      simp
    · rw [if_neg hp]
      by_cases hc : (el.tag == "chapter" && el.get "eid" == none) = true
      · rw [if_pos hc, ih, hc]
        simp
      · have hc' : (el.tag == "chapter" && el.get "eid" == none) = false := by
          simpa using hc
        rw [if_neg hc, ih, hc']
        simp

/-- Chapter-start markers never count as an end marker for the writer. -/
theorem hasChapterEnd_filter_false (content : List Element) :
    hasChapterEnd (content.filter
      (fun el => el.tag == "chapter" && el.get "eid" == none)) = false := by
  rw [hasChapterEnd, List.any_eq_false]
  intro x hx
  rcases List.mem_filter.mp hx with ⟨-, hpx⟩
  rw [Bool.and_eq_true] at hpx
  rcases hpx with ⟨-, hx2⟩
  simp [eq_of_beq hx2, truthyStr]

/-- Every verse entry of the chunk list gets its file (with the chunk
computed by the Chunk Extractor) into the output of the chunk loop. -/
theorem pcGo_verse_mem : ∀ (n : Nat) (content : List Element) (chunks : List ChunkSpec)
    (files : List ChunkFile) (v : Int),
    pcGo n content chunks = .ok files →
    ChunkSpec.verse v ∈ chunks →
    ∀ chunk, evGo content v v = .ok chunk →
    ChunkFile.mk v false (create_chunk_root n chunk false) ∈ files
  | n, content, [], files, v, h, hmem => by simp at hmem
  | n, content, ChunkSpec.title :: rest, files, v, h, hmem => by
    intro chunk hev
    simp only [pcGo] at h
    cases hr : pcGo n content rest with
    | error u => rw [hr] at h; simp at h
    | ok fs =>
      rw [hr] at h
      simp only [Except.ok.injEq] at h
      rcases List.mem_cons.mp hmem with hm | hm
      · exact nomatch hm
      · have hin := pcGo_verse_mem n content rest fs v hr hm chunk hev
        rw [← h]
        exact List.mem_cons_of_mem _ hin
  | n, content, ChunkSpec.verse w :: rest, files, v, h, hmem => by
    intro chunk hev
    simp only [pcGo] at h
    cases hcw : evGo content w w with
    | error u => rw [hcw] at h; simp at h
    | ok chunkw =>
      rw [hcw] at h
      cases hr : pcGo n content rest with
      | error u => rw [hr] at h; simp at h
      | ok fs =>
        rw [hr] at h
        simp only [Except.ok.injEq] at h
        rcases List.mem_cons.mp hmem with hm | hm
        · injection hm with hvw
          subst hvw
          rw [hev] at hcw
          injection hcw with hc2
          rw [← h, hc2]
          exact List.mem_cons_self _ _
        · have hin := pcGo_verse_mem n content rest fs v hr hm chunk hev
          rw [← h]
          exact List.mem_cons_of_mem _ hin

/-- C10: for a chapter with non-empty extracted content, a TOC verse entry
matching no paragraph still produces its output file, holding only the
book node, the carried-over chapter-start markers, and a synthesized end
marker. -/
theorem C10_unmatched_verse_file (n : Nat) (doc : List Element) (chunks : List ChunkSpec)
    (v : Int) (files : List ChunkFile)
    (hne : extract_chapter_content doc n ≠ [])
    (hmem : ChunkSpec.verse v ∈ chunks)
    (hrun : process_chapter n doc chunks = .ok files)
    (hnomatch : ∀ p ∈ extract_chapter_content doc n, p.tag = "para" →
        extract_verses_from_para p v v = .ok none) :
    ChunkFile.mk v false (Element.mk "usx" [("version", "3.0")] none none
        (bookInfoNode ::
          ((extract_chapter_content doc n).filter
              (fun el => el.tag == "chapter" && el.get "eid" == none) ++
            [chapterEndNode n]))) ∈ files := by
  have hev := evGo_no_match (extract_chapter_content doc n) v hnomatch
  have hie : (extract_chapter_content doc n).isEmpty = false := by
    cases hx : extract_chapter_content doc n with
    | nil => exact absurd hx hne
    | cons a l => rfl
  rw [process_chapter] at hrun
  rw [hie] at hrun
  simp only [Bool.false_eq_true, if_false] at hrun
  have hin := pcGo_verse_mem n (extract_chapter_content doc n) chunks files v hrun hmem _ hev
  have hcc : create_chunk_root n ((extract_chapter_content doc n).filter
      (fun el => el.tag == "chapter" && el.get "eid" == none)) false =
      Element.mk "usx" [("version", "3.0")] none none
        (bookInfoNode ::
          ((extract_chapter_content doc n).filter
              (fun el => el.tag == "chapter" && el.get "eid" == none) ++
            [chapterEndNode n])) := by
    simp [create_chunk_root, hasChapterEnd_filter_false]
  rw [hcc] at hin
  exact hin

def exC10Chunks : List ChunkSpec := [ChunkSpec.title, ChunkSpec.verse 7]

def exC10Files : List ChunkFile :=
  [ChunkFile.mk 0 true (Element.mk "usx" [("version", "3.0")] none none [exC1Start]),
   ChunkFile.mk 7 false (Element.mk "usx" [("version", "3.0")] none none
     [bookInfoNode, exC1Start, chapterEndNode 1])]

/-- Witness for `C10_unmatched_verse_file`: chapter 1's content has no
paragraph holding verse 7, yet `01/07.usx` is still produced. -/
theorem C10_unmatched_verse_file_witness :
    (extract_chapter_content exC1Doc 1 ≠ [] ∧
     ChunkSpec.verse 7 ∈ exC10Chunks ∧
     process_chapter 1 exC1Doc exC10Chunks = .ok exC10Files) ∧
    ChunkFile.mk 7 false (Element.mk "usx" [("version", "3.0")] none none
        (bookInfoNode ::
          ((extract_chapter_content exC1Doc 1).filter
              (fun el => el.tag == "chapter" && el.get "eid" == none) ++
            [chapterEndNode 1]))) ∈ exC10Files :=
  have hne : extract_chapter_content exC1Doc 1 ≠ [] := by
    rw [show extract_chapter_content exC1Doc 1 = [exC1Start, exC1Para] from rfl]
    simp
  have hmem : ChunkSpec.verse 7 ∈ exC10Chunks := by decide
  have hnomatch : ∀ p ∈ extract_chapter_content exC1Doc 1, p.tag = "para" →
      extract_verses_from_para p 7 7 = .ok none := by
    intro p hp ht
    rw [show extract_chapter_content exC1Doc 1 = [exC1Start, exC1Para] from rfl] at hp
    rcases List.mem_cons.mp hp with rfl | hp'
    · exact absurd ht (by decide)
    · rcases List.mem_singleton.mp hp' with rfl
      rfl
  ⟨⟨hne, hmem, rfl⟩,
   C10_unmatched_verse_file 1 exC1Doc exC10Chunks 7 exC10Files hne hmem rfl hnomatch⟩

/-! ### C3: extraction shares child nodes instead of copying them -/

/-- The id stored right past the end of a heap extended by one node is
that node. -/
theorem nodeAt_append_self : ∀ (l : List ENode) (nd : ENode),
    nodeAt (l ++ [nd]) l.length = nd
  | [], _ => rfl
  | _ :: l, nd => nodeAt_append_self l nd

/-- Every id the heap walk stores into the copy is one of the source
paragraph's child ids: `append` records references, never fresh nodes. -/
theorem walkH_subset : ∀ (hp : List ENode) (ids : List Nat) (s e : Int)
    (kids : List Nat) (ct : String),
    walkChildrenH hp ids s e = .ok (kids, ct) →
    ∀ i ∈ kids, i ∈ ids
  | hp, [], s, e, kids, ct, hw => by
    intro i hi
    simp only [walkChildrenH] at hw
    simp only [Except.ok.injEq, Prod.mk.injEq] at hw
    rcases hw with ⟨hk, -⟩
    rw [← hk] at hi
    exact absurd hi (by simp)
  | hp, i0 :: rest, s, e, kids, ct, hw => by
    intro i hi
    simp only [walkChildrenH] at hw
    by_cases h1 : ((nodeAt hp i0).tag == "verse") = true
    · rw [if_pos h1] at hw
      cases hv : verseNumH hp i0 with
      | none => simp [hv] at hw
      | some n =>
        simp only [hv] at hw
        by_cases h2 : (decide (s ≤ n) && decide (n ≤ e)) = true
        · rw [if_pos h2] at hw
          cases hwr : walkChildrenH hp rest s e with
          | error u => rw [hwr] at hw; simp at hw
          | ok pr =>
            obtain ⟨l, t⟩ := pr
            rw [hwr] at hw
            simp only [Except.ok.injEq, Prod.mk.injEq] at hw
            rcases hw with ⟨hk, -⟩
            rw [← hk] at hi
            rcases List.mem_cons.mp hi with rfl | hi'
            · simp
            · exact List.mem_cons_of_mem _ (walkH_subset hp rest s e l t hwr i hi')
        · rw [if_neg h2] at hw
          exact List.mem_cons_of_mem _ (walkH_subset hp rest s e kids ct hw i hi)
    · rw [if_neg h1] at hw
      cases hwr : walkChildrenH hp rest s e with
      | error u => rw [hwr] at hw; simp at hw
      | ok pr =>
        obtain ⟨l, t⟩ := pr
        rw [hwr] at hw
        simp only [Except.ok.injEq, Prod.mk.injEq] at hw
        rcases hw with ⟨hk, -⟩
        rw [← hk] at hi
        rcases List.mem_cons.mp hi with rfl | hi'
        · simp
        · exact List.mem_cons_of_mem _ (walkH_subset hp rest s e l t hwr i hi')

/-- C3 (amended): the paragraph slice does not modify any existing node
(the source heap survives as a prefix) and the copy itself is a fresh
node — but the copy's children are *the original child node ids* of the
source paragraph: child elements are shared by reference between the
source tree and the output document, not structurally copied. -/
theorem C3_children_aliased (hp : List ENode) (pid : Nat) (s e : Int)
    (hp2 : List ENode) (cid : Nat)
    (hex : extract_verses_from_para_h hp pid s e = .ok (hp2, some cid)) :
    cid = hp.length ∧
    hp2.take hp.length = hp ∧
    (∀ i ∈ (nodeAt hp2 cid).childIds, i ∈ (nodeAt hp pid).childIds) := by
  rw [extract_verses_from_para_h] at hex
  cases hh : hasVersesInRangeH hp (nodeAt hp pid).childIds s e with
  | error u => rw [hh] at hex; simp at hex
  | ok hv =>
    simp only [hh] at hex
    cases hv with
    | false => simp at hex
    | true =>
      simp only [Bool.not_true, Bool.false_eq_true, if_false] at hex
      cases hw : walkChildrenH hp (nodeAt hp pid).childIds s e with
      | error u => rw [hw] at hex; simp at hex
      | ok pr =>
        obtain ⟨kids, ct⟩ := pr
        simp only [hw] at hex
        split at hex
        · simp only [Except.ok.injEq, Prod.mk.injEq] at hex
          rcases hex with ⟨hhp, hcid⟩
          injection hcid with hcid
          subst hcid
          refine ⟨rfl, ?_, ?_⟩
          · rw [← hhp]
            simp
          · intro i hi
            rw [← hhp, nodeAt_append_self] at hi
            exact walkH_subset hp (nodeAt hp pid).childIds s e kids ct hw i hi
        · simp at hex

def exHeapPara : ENode := ENode.mk "para" [("style", "p")] (some "Lead ") none [1]

def exHeapVerse : ENode := ENode.mk "verse" [("number", "3")] none (some "text three") []

def exHeap : List ENode := [exHeapPara, exHeapVerse]

def exHeapCopy : ENode := ENode.mk "para" [("style", "p")] (some "Lead text three") none [1]

/-- C3 (counterexample): slicing verse 3 out of the heap paragraph (node
0, child node 1) allocates the copy as node 2 whose child list is `[1]` —
the very node of the source tree, so an element object *is* shared
between the source tree and the output document, contrary to the claim
that every node placed into an output is a structural copy. -/
theorem C3_counterexample :
    extract_verses_from_para_h exHeap 0 3 3 = .ok (exHeap ++ [exHeapCopy], some 2) ∧
    (nodeAt (exHeap ++ [exHeapCopy]) 2).childIds = [1] ∧
    1 < exHeap.length :=
  ⟨rfl, rfl, by decide⟩

/-- Witness for `C3_children_aliased` at the concrete heap. -/
theorem C3_children_aliased_witness :
    extract_verses_from_para_h exHeap 0 3 3 = .ok (exHeap ++ [exHeapCopy], some 2) ∧
    (2 = exHeap.length ∧
     (exHeap ++ [exHeapCopy]).take exHeap.length = exHeap ∧
     (∀ i ∈ (nodeAt (exHeap ++ [exHeapCopy]) 2).childIds, i ∈ (nodeAt exHeap 0).childIds)) :=
  ⟨rfl, C3_children_aliased exHeap 0 3 3 (exHeap ++ [exHeapCopy]) 2 rfl⟩
